import Mathlib

/-!
# Verification of the American-Transcendentalism distant-reading pipeline

Shallow embedding of `src/extract_texts.py` and `src/analyze_texts.py`.

Python data types are modelled as follows: insertion-ordered dicts become
association lists `List (ι × β)`, Python sets become `Finset`/deduplicated
lists, floats become `ℚ` with explicit decimal rounding (`roundTo`, using
round-half-to-even as Python's `round` does), and code that can raise
(`ZeroDivisionError`) returns `Except Unit _`.  External library calls
(NLTK tokenization, VADER polarity scoring) are parameters of the embedded
functions, matching the spec's "delegated" contract.
-/

/-! ## Decimal rounding (Python `round(x, d)`) -/

/-- Round a rational to the nearest integer, halves to the even integer,
as Python's `round` does. -/
def roundHalfEven (q : ℚ) : ℤ :=
  let f := ⌊q⌋
  let r := q - f
  if r < 1/2 then f
  else if 1/2 < r then f + 1
  else if f % 2 = 0 then f else f + 1

/-- Python `round(q, d)`: round `q` to `d` decimal places. -/
def roundTo (d : Nat) (q : ℚ) : ℚ :=
  (roundHalfEven (q * 10 ^ d) : ℚ) / 10 ^ d

/-! ## Extractor (`src/extract_texts.py`)

`extract_clean_text` searches the file content for the two regex patterns

    \*\*\* START OF (?:THIS|THE) PROJECT GUTENBERG EBOOK .+ \*\*\*
    \*\*\* END OF (?:THIS|THE) PROJECT GUTENBERG EBOOK .+ \*\*\*

case-insensitively with `re.search` (leftmost match; the greedy `.+` does
not cross a newline and extends to the last ` ***` it can reach), then
slices the content strictly between `start_match.end()` and
`end_match.start()` and strips surrounding whitespace. -/

/-- Case-insensitive literal match of `lit` inside `cs` at offset `i`
(`re.IGNORECASE` folds letters). -/
def litMatch (cs : List Char) (i : Nat) (lit : List Char) : Bool :=
  ((cs.drop i).take lit.length).map Char.toLower == lit.map Char.toLower

/-- Do the characters of `cs` at offsets `[a, b)` avoid `'\n'`
(the characters regex `.` may consume)? -/
def noNewline (cs : List Char) (a b : Nat) : Bool :=
  ((cs.drop a).take (b - a)).all (fun c => c != '\n')

/-- Match `.+ \*\*\*` starting at offset `j`: the greedy `.+` consumes
`[j, m)` (nonempty, no newline) followed by the literal `" ***"`; among the
possible `m` the greedy engine commits to the largest.  Returns the offset
just past the final `" ***"`. -/
def dotPlusStars (cs : List Char) (j : Nat) : Option Nat :=
  ((List.range (cs.length + 1)).filterMap (fun m =>
    if j < m ∧ noNewline cs j m ∧ litMatch cs m " ***".data then
      some (m + 4)
    else none)).getLast?

/-- Match one full marker pattern at offset `i`; `kw` is `"START"` or
`"END"`.  The two alternation branches `THIS`/`THE` cannot both match at
the same offset (they diverge at the character after `TH`), so ordered
trial is faithful to the regex engine. -/
def matchMarkerAt (kw : String) (cs : List Char) (i : Nat) : Option Nat :=
  let p1 := ("*** " ++ kw ++ " OF THIS PROJECT GUTENBERG EBOOK ").data
  let p2 := ("*** " ++ kw ++ " OF THE PROJECT GUTENBERG EBOOK ").data
  if litMatch cs i p1 then dotPlusStars cs (i + p1.length)
  else if litMatch cs i p2 then dotPlusStars cs (i + p2.length)
  else none

/-- Search with `re.search` for the marker pattern: the match at the leftmost offset
that admits one; returns `(match.start(), match.end())`. -/
def searchMarker (kw : String) (cs : List Char) : Option (Nat × Nat) :=
  (List.range (cs.length + 1)).findSome? (fun i =>
    (matchMarkerAt kw cs i).map (fun e => (i, e)))

/-- Python `str.strip()` whitespace characters (ASCII fragment). -/
def isPyWS (c : Char) : Bool :=
  c == ' ' || c == '\t' || c == '\n' || c == '\r' || c == '\x0b' || c == '\x0c'

/-- Python `str.strip()`. -/
def pyStrip (cs : List Char) : List Char :=
  ((cs.dropWhile isPyWS).reverse.dropWhile isPyWS).reverse

/-- Embedding of `extract_clean_text` from `src/extract_texts.py`, at the level of file
content: search for both markers; if both are found return the content
strictly between the end of the start match and the start of the end match,
stripped; otherwise (the delimiter warning path) return `none`. -/
def extract_clean_text (content : List Char) : Option (List Char) :=
  match searchMarker "START" content, searchMarker "END" content with
  | some se, some es => some (pyStrip ((content.drop se.2).take (es.1 - se.2)))
  | _, _ => none

/-- Outcome of `main`'s per-file processing in `src/extract_texts.py`:
whether the cleaned text was written to the output file, whether the
delimiter warning was printed (inside `extract_clean_text`), and whether
the `✗ Failed to extract text` branch was taken. -/
structure FileOutcome where
  wrote : Bool
  warned : Bool
  failed : Bool
  deriving DecidableEq, Repr

/-- One iteration of `main`'s loop in `src/extract_texts.py`: the output
file is written exactly when `extract_clean_text` returned a truthy
(non-`None`, nonempty) string. -/
def processFile (content : List Char) : FileOutcome :=
  match extract_clean_text content with
  | none => ⟨false, true, true⟩
  | some t => if t = [] then ⟨false, false, true⟩ else ⟨true, false, false⟩

/-- Embedding of `main` from `src/extract_texts.py` over the contents of the input
files: every file is processed; no per-file failure aborts the loop. -/
def extractorRun (files : List (List Char)) : List FileOutcome :=
  files.map processFile

/-! ## Analyzer (`src/analyze_texts.py`)

NLTK's `sent_tokenize`/`word_tokenize` and VADER's `polarity_scores` are
external library calls; the embedded functions take the sentence list,
token list and the polarity scorer as parameters. -/

/-- VADER per-sentence polarity scores (`analyzer.polarity_scores`). -/
structure SentenceScores where
  compound : ℚ
  pos : ℚ
  neu : ℚ
  neg : ℚ

/-- The record returned by `analyze_sentiment`. -/
structure SentimentResult where
  compound : ℚ
  positive : ℚ
  neutral : ℚ
  negative : ℚ
  overall : String
  sentences_analyzed : Nat

/-- Helper for slicing: `takeEveryAux k c l` picks the elements of `l` at offsets
`c, c + k, c + 2k, …` (`c` is the countdown until the next pick). -/
def takeEveryAux {α : Type} (k : Nat) : Nat → List α → List α
  | _, [] => []
  | 0, x :: xs => x :: takeEveryAux k (k - 1) xs
  | c + 1, _ :: xs => takeEveryAux k c xs

/-- Python's slice `l[::k]` for `k ≥ 1`: every `k`-th element starting
with the first. -/
def takeEvery {α : Type} (k : Nat) (l : List α) : List α :=
  takeEveryAux k 0 l

/-- The sampling step of `analyze_sentiment`:
`sentences[::step][:sample_size]` with `step = len(sentences) // sample_size`
when `len(sentences) > sample_size`, the whole list otherwise. -/
def sample_sentences (sentences : List String) (sample_size : Nat) : List String :=
  if sample_size < sentences.length then
    (takeEvery (sentences.length / sample_size) sentences).take sample_size
  else sentences

/-- Embedding of `analyze_sentiment` from `src/analyze_texts.py`, over the sentence
list produced by `sent_tokenize` and the VADER scorer `polarity`. -/
def analyze_sentiment (polarity : String → SentenceScores) (sentences : List String)
    (sample_size : Nat := 1000) : SentimentResult :=
  let sampled := sample_sentences sentences sample_size
  let sentiments := sampled.map polarity
  if sentiments.length = 0 then
    ⟨0, 0, 0, 0, "neutral", sampled.length⟩
  else
    let n : ℚ := sentiments.length
    let avg_compound := (sentiments.map SentenceScores.compound).sum / n
    let avg_pos := (sentiments.map SentenceScores.pos).sum / n
    let avg_neu := (sentiments.map SentenceScores.neu).sum / n
    let avg_neg := (sentiments.map SentenceScores.neg).sum / n
    let overall :=
      if avg_compound ≥ 5/100 then "positive"
      else if avg_compound ≤ -(5/100) then "negative"
      else "neutral"
    ⟨roundTo 4 avg_compound, roundTo 4 avg_pos, roundTo 4 avg_neu, roundTo 4 avg_neg,
      overall, sampled.length⟩

/-- Python `str.split()` on a character list: split on runs of whitespace,
discarding empty pieces (`acc` holds the current word reversed). -/
def pyWordsAux : List Char → List Char → List (List Char)
  | [], acc => if acc.isEmpty then [] else [acc.reverse]
  | c :: cs, acc =>
    if isPyWS c then
      if acc.isEmpty then pyWordsAux cs [] else acc.reverse :: pyWordsAux cs []
    else pyWordsAux cs (c :: acc)

/-- Python `text.split()`. -/
def pySplit (s : String) : List (List Char) :=
  pyWordsAux s.data []

/-- Python `str.isalpha()`: nonempty and purely alphabetic. -/
def pyIsAlpha (w : List Char) : Bool :=
  !w.isEmpty && w.all Char.isAlpha

/-- The record returned by `calculate_text_statistics`. -/
structure TextStatistics where
  total_words : Nat
  total_sentences : Nat
  unique_words : Nat
  filtered_tokens : Nat
  lexical_diversity : ℚ
  avg_sentence_length : ℚ

/-- Embedding of `calculate_text_statistics` from `src/analyze_texts.py`; `sentences`
is the result of the delegated `sent_tokenize(text)`. -/
def calculate_text_statistics (text : String) (sentences : List String)
    (tokens : List String) : TextStatistics :=
  let words := pySplit text
  let uniqueWords := ((words.filter pyIsAlpha).map (fun w => w.map Char.toLower)).dedup
  let lexicalDiversity : ℚ :=
    if words.length = 0 then 0 else (uniqueWords.length : ℚ) / words.length
  let avgSentenceLength : ℚ :=
    if sentences.length = 0 then 0 else (words.length : ℚ) / sentences.length
  ⟨words.length, sentences.length, uniqueWords.length, tokens.length,
    roundTo 4 lexicalDiversity, roundTo 2 avgSentenceLength⟩

/-! ### Counters and stable count-descending sorting

Python dicts (and `collections.Counter`) iterate in insertion order, which
for a counter built in one pass is the order of first appearance of each
key.  `sorted(..., key=lambda x: x[1], reverse=True)` and
`Counter.most_common(n)` are stable descending sorts by count: elements
with equal counts keep their original relative order. -/

/-- Elements of the second list not in `seen`, in order of first
appearance. -/
def firstOccs {α : Type} [DecidableEq α] (seen : List α) : List α → List α
  | [] => []
  | x :: xs => if x ∈ seen then firstOccs seen xs else x :: firstOccs (x :: seen) xs

/-- Model of `collections.Counter(l)` as an insertion-ordered association list:
keys in order of first appearance, each with its total number of
occurrences in `l`. -/
def counter {α : Type} [DecidableEq α] (l : List α) : List (α × Nat) :=
  (firstOccs [] l).map (fun w => (w, l.count w))

/-- The comparison used by `sorted(..., key=lambda x: x[1], reverse=True)`:
descending by the `Nat` component. -/
def byCount {α : Type} : α × Nat → α × Nat → Prop :=
  fun a b => b.2 ≤ a.2

instance {α : Type} : DecidableRel (byCount (α := α)) :=
  fun a b => Nat.decLe b.2 a.2

instance {α : Type} : IsTotal (α × Nat) byCount :=
  ⟨fun a b => Nat.le_total b.2 a.2⟩

instance {α : Type} : IsTrans (α × Nat) byCount :=
  ⟨fun _ _ _ h1 h2 => Nat.le_trans h2 h1⟩

/-- Model of `Counter.most_common(n)`: stable descending sort by count, truncated
to the first `n` entries. -/
def most_common {α : Type} (c : List (α × Nat)) (n : Nat) : List (α × Nat) :=
  (List.insertionSort byCount c).take n

/-- Embedding of `build_word_frequency` from `src/analyze_texts.py`. -/
def build_word_frequency {α : Type} [DecidableEq α] (tokens : List α)
    (top_n : Nat := 100) : List (α × Nat) :=
  most_common (counter tokens) top_n

/-! ### Vocabulary comparison -/

/-- One entry of the `compare_vocabularies` report. -/
structure VocabComp where
  shared_words : Nat
  overlap_percentage : ℚ
  deriving DecidableEq

/-- Sequential effectful map over a list: Python loop semantics, where the
first raised exception aborts the whole computation. -/
def mapE {α β : Type} (f : α → Except Unit β) : List α → Except Unit (List β)
  | [] => .ok []
  | x :: xs =>
    match f x with
    | .error e => .error e
    | .ok y =>
      match mapE f xs with
      | .error e => .error e
      | .ok ys => .ok (y :: ys)

/-- The body of the inner loop of `compare_vocabularies`: shared-word
count and overlap percentage of the pair `(ta, tb)`, relative to `ta`'s
vocabulary size.  The division is unguarded in the source; a zero
denominator is Python's `ZeroDivisionError`, modelled as `.error`. -/
def comparePair {α : Type} [DecidableEq α] (ta tb : List α) : Except Unit VocabComp :=
  let ua := ta.toFinset
  let ub := tb.toFinset
  if ua.card = 0 then .error ()
  else .ok ⟨(ua ∩ ub).card, roundTo 2 (((ua ∩ ub).card : ℚ) / ua.card * 100)⟩

/-- Embedding of `compare_vocabularies` from `src/analyze_texts.py`: for every ordered
pair of distinct text ids, the shared-word count and overlap percentage. -/
def compare_vocabularies {ι α : Type} [DecidableEq ι] [DecidableEq α]
    (all_tokens : List (ι × List α)) : Except Unit (List (ι × List (ι × VocabComp))) :=
  mapE (fun p =>
    (mapE (fun q => (comparePair p.2 q.2).map (fun v => (q.1, v)))
        (all_tokens.filter (fun q => decide (q.1 ≠ p.1)))).map
      (fun row => (p.1, row)))
    all_tokens

/-! ### Distinctive words -/

/-- Python `word in other_freq` for a counter association list. -/
def hasKey {α : Type} [DecidableEq α] (w : α) (l : List (α × Nat)) : Bool :=
  l.any (fun e => decide (e.1 = w))

/-- Embedding of `appears_in` from `find_distinctive_words`: the number of texts other
than `text_id` whose frequency table contains `w`. -/
def appears_in {ι α : Type} [DecidableEq ι] [DecidableEq α]
    (all_freqs : List (ι × List (α × Nat))) (text_id : ι) (w : α) : Nat :=
  all_freqs.countP (fun p => decide (p.1 ≠ text_id) && hasKey w p.2)

/-- The `scores` dict of `find_distinctive_words` for one text, in the
insertion order of its frequency table: eligible words (absent from at
least one other text) paired with `count × (total_text_count − appears_in)`. -/
def scoresList {ι α : Type} [DecidableEq ι] [DecidableEq α]
    (all_freqs : List (ι × List (α × Nat))) (text_id : ι) (freq : List (α × Nat)) :
    List (α × Nat) :=
  (freq.filter
      (fun wc => decide (appears_in all_freqs text_id wc.1 < all_freqs.length - 1))).map
    (fun wc => (wc.1, wc.2 * (all_freqs.length - appears_in all_freqs text_id wc.1)))

/-- Embedding of `find_distinctive_words` from `src/analyze_texts.py`. -/
def find_distinctive_words {ι α : Type} [DecidableEq ι] [DecidableEq α]
    (all_tokens : List (ι × List α)) (top_n : Nat := 20) : List (ι × List (α × Nat)) :=
  let all_freqs := all_tokens.map (fun p => (p.1, counter p.2))
  all_freqs.map (fun p =>
    (p.1, (List.insertionSort byCount (scoresList all_freqs p.1 p.2)).take top_n))

/-- Claim-side count: the number of texts other than `text_id` whose token
sequence (vocabulary) contains `w`, computed directly on the token lists. -/
def appearsInTokens {ι α : Type} [DecidableEq ι] [DecidableEq α]
    (all_tokens : List (ι × List α)) (text_id : ι) (w : α) : Nat :=
  all_tokens.countP (fun p => decide (p.1 ≠ text_id) && decide (w ∈ p.2))

/-- The mean compound score over the scored sentences, `0` when there are
none (the quantity the spec's classification thresholds apply to). -/
def meanCompound (scored : List SentenceScores) : ℚ :=
  if scored.length = 0 then 0
  else (scored.map SentenceScores.compound).sum / scored.length

/-! ### Concrete inputs used by the examples -/

/-- The spec's synthetic Project Gutenberg file:
start line, blank line, `BODY`, blank line, end line. -/
def exGutenberg : List Char :=
  ("*** START OF THE PROJECT GUTENBERG EBOOK TITLE ***" ++ "\n\n" ++ "BODY" ++ "\n\n" ++
   "*** END OF THE PROJECT GUTENBERG EBOOK TITLE ***").data

/-- A file whose two delimiter lines are adjacent: both markers are found
but the text strictly between them strips to the empty string. -/
def exEmptyBody : List Char :=
  ("*** START OF THE PROJECT GUTENBERG EBOOK T ***" ++ "\n" ++
   "*** END OF THE PROJECT GUTENBERG EBOOK T ***").data

/-- The spec's end-to-end distinctive-words corpus. -/
def exCorpus : List (String × List String) :=
  [("A", ["whale", "whale", "sea"]), ("B", ["whale", "forest"]),
   ("C", ["forest", "forest", "sea"])]

/-- A two-text corpus on which the vocabulary-overlap percentage is
asymmetric. -/
def exOverlap : List (String × List String) :=
  [("A", ["a", "b"]), ("B", ["a"])]

/-! ## Theorems -/

theorem le_roundHalfEven {n : ℤ} {q : ℚ} (h : (n : ℚ) ≤ q) :
    n ≤ roundHalfEven q := by
  have hf : n ≤ ⌊q⌋ := Int.le_floor.mpr h
  unfold roundHalfEven
  dsimp only
  split
  · exact hf
  · split
    · omega
    · split
      · exact hf
      · omega

theorem roundHalfEven_le {n : ℤ} {q : ℚ} (h : q ≤ (n : ℚ)) :
    roundHalfEven q ≤ n := by
  have hf : ⌊q⌋ ≤ n := by
    have := Int.floor_le_floor h
    simpa using this
  unfold roundHalfEven
  dsimp only
  split
  · exact hf
  next hlt =>
    have hr : (1:ℚ)/2 ≤ q - ⌊q⌋ := le_of_not_lt hlt
    have hq : (⌊q⌋ : ℚ) < q := by
      have : (0:ℚ) < 1/2 := by norm_num
      linarith
    have hstrict : ⌊q⌋ < n := by
      have : (⌊q⌋ : ℚ) < (n : ℚ) := lt_of_lt_of_le hq h
      exact_mod_cast this
    split
    · omega
    · split
      · exact hf
      · omega

theorem le_roundTo {n : ℤ} {d : Nat} {q : ℚ} (h : (n : ℚ) ≤ q) :
    (n : ℚ) ≤ roundTo d q := by
  unfold roundTo
  have hpow : (0:ℚ) < 10 ^ d := by positivity
  rw [le_div_iff₀ hpow]
  have h1 : ((n * 10 ^ d : ℤ) : ℚ) ≤ q * 10 ^ d := by
    push_cast
    exact mul_le_mul_of_nonneg_right h (le_of_lt hpow)
  have h2 : (n * 10 ^ d : ℤ) ≤ roundHalfEven (q * 10 ^ d) := le_roundHalfEven h1
  calc ((n:ℚ) * 10 ^ d) = ((n * 10 ^ d : ℤ) : ℚ) := by push_cast; ring
    _ ≤ (roundHalfEven (q * 10 ^ d) : ℚ) := by exact_mod_cast h2

theorem roundTo_le {n : ℤ} {d : Nat} {q : ℚ} (h : q ≤ (n : ℚ)) :
    roundTo d q ≤ (n : ℚ) := by
  unfold roundTo
  have hpow : (0:ℚ) < 10 ^ d := by positivity
  rw [div_le_iff₀ hpow]
  have h1 : q * 10 ^ d ≤ ((n * 10 ^ d : ℤ) : ℚ) := by
    push_cast
    exact mul_le_mul_of_nonneg_right h (le_of_lt hpow)
  have h2 : roundHalfEven (q * 10 ^ d) ≤ (n * 10 ^ d : ℤ) := roundHalfEven_le h1
  calc (roundHalfEven (q * 10 ^ d) : ℚ) ≤ ((n * 10 ^ d : ℤ) : ℚ) := by exact_mod_cast h2
    _ = (n:ℚ) * 10 ^ d := by push_cast; ring

theorem roundTo_zero (d : Nat) : roundTo d 0 = 0 := by
  unfold roundTo roundHalfEven
  norm_num

/-! ### Sampling (`takeEvery`) -/

theorem takeEveryAux_sublist {α : Type} (k : Nat) (l : List α) :
    ∀ c, List.Sublist (takeEveryAux k c l) l := by
  induction l with
  | nil => intro c; cases c <;> simp [takeEveryAux]
  | cons x xs ih =>
    intro c
    cases c with
    | zero => exact (ih (k - 1)).cons₂ x
    | succ c => exact (ih c).cons x

theorem takeEveryAux_getElem? {α : Type} {k : Nat} (hk : 0 < k) (l : List α) :
    ∀ (c j : Nat), (takeEveryAux k c l)[j]? = l[c + j * k]? := by
  induction l with
  | nil => intro c j; simp [takeEveryAux]
  | cons x xs ih =>
    intro c j
    cases c with
    | zero =>
      cases j with
      | zero => simp [takeEveryAux]
      | succ j =>
        have hmul : (j + 1) * k = j * k + k := by ring
        have h1 : 0 + (j + 1) * k = ((k - 1) + j * k) + 1 := by omega
        simp only [takeEveryAux, List.getElem?_cons_succ, ih (k - 1) j, h1]
    | succ c =>
      have h1 : c + 1 + j * k = (c + j * k) + 1 := by omega
      simp only [takeEveryAux, ih c j, h1, List.getElem?_cons_succ]

/-- C3: for every sentence list `S` and positive `sample_size` `n`, the
sentiment analyzer's sample is: all of `S` when `|S| ≤ n`; otherwise the
stride sample of every `k`-th sentence of `S` (`k = ⌊|S| / n⌋`) truncated
to the first `n` entries — entry `j` of the sample is entry `j·k` of `S` —
and in both cases a subsequence of `S` in original order.  The sample is a
pure function of `S` and `n`, so repeated runs yield the identical
subsequence. -/
theorem C3_sampling (S : List String) (n : Nat) (hn : 0 < n) :
    (S.length ≤ n → sample_sentences S n = S) ∧
    (n < S.length → ∀ j : Nat,
      (sample_sentences S n)[j]? =
        if j < n then S[j * (S.length / n)]? else none) ∧
    List.Sublist (sample_sentences S n) S := by
  refine ⟨?_, ?_, ?_⟩
  · intro h
    unfold sample_sentences
    rw [if_neg (by omega)]
  · intro h j
    have hk : 0 < S.length / n := Nat.div_pos (le_of_lt h) hn
    unfold sample_sentences
    rw [if_pos h]
    by_cases hj : j < n
    · rw [if_pos hj, List.getElem?_take_of_lt hj]
      unfold takeEvery
      rw [takeEveryAux_getElem? hk S 0 j, Nat.zero_add, Nat.mul_comm]
    · rw [if_neg hj]
      refine List.getElem?_eq_none ?_
      exact le_trans (List.length_take_le _ _) (le_of_not_lt hj)
  · unfold sample_sentences
    split
    · exact List.Sublist.trans (List.take_sublist _ _) (takeEveryAux_sublist _ _ _)
    · exact List.Sublist.refl S

/-- Witness for C3 at `S = [a, b, c, d, e]`, `n = 2` (so `k = 2` and the
sample is `[a, c]`). -/
theorem C3_sampling_witness :
    (0 < 2 ∧
      ((["a", "b", "c", "d", "e"] : List String).length ≤ 2 →
        sample_sentences ["a", "b", "c", "d", "e"] 2 = ["a", "b", "c", "d", "e"]) ∧
      (2 < (["a", "b", "c", "d", "e"] : List String).length → ∀ j : Nat,
        (sample_sentences ["a", "b", "c", "d", "e"] 2)[j]? =
          if j < 2 then (["a", "b", "c", "d", "e"] : List String)[j * ((["a", "b", "c", "d", "e"] : List String).length / 2)]? else none) ∧
      List.Sublist (sample_sentences ["a", "b", "c", "d", "e"] 2) ["a", "b", "c", "d", "e"]) ∧
    sample_sentences ["a", "b", "c", "d", "e"] 2 = ["a", "c"] :=
  ⟨⟨by decide, C3_sampling ["a", "b", "c", "d", "e"] 2 (by decide)⟩, by decide⟩

/-- C4: the sentiment label is determined from the mean compound score of
the scored sentences by thresholding: mean ≥ 0.05 gives `"positive"`,
mean ≤ −0.05 gives `"negative"`, anything strictly between gives
`"neutral"`; the boundary values 0.05, −0.05 and 0 (including the
zero-filled no-sentence case) classify as positive, negative and neutral
respectively. -/
theorem C4_sentiment_label (polarity : String → SentenceScores)
    (sentences : List String) (n : Nat) :
    ((analyze_sentiment polarity sentences n).overall = "positive" ↔
      5/100 ≤ meanCompound ((sample_sentences sentences n).map polarity)) ∧
    ((analyze_sentiment polarity sentences n).overall = "negative" ↔
      meanCompound ((sample_sentences sentences n).map polarity) ≤ -(5/100)) ∧
    ((analyze_sentiment polarity sentences n).overall = "neutral" ↔
      (-(5/100) < meanCompound ((sample_sentences sentences n).map polarity) ∧
        meanCompound ((sample_sentences sentences n).map polarity) < 5/100)) ∧
    (sentences = [] → (analyze_sentiment polarity sentences n).overall = "neutral" ∧
      (analyze_sentiment polarity sentences n).compound = 0) ∧
    (analyze_sentiment (fun _ => ⟨5/100, 0, 0, 0⟩) ["s"] 1000).overall = "positive" ∧
    (analyze_sentiment (fun _ => ⟨-(5/100), 0, 0, 0⟩) ["s"] 1000).overall = "negative" ∧
    (analyze_sentiment (fun _ => ⟨0, 0, 0, 0⟩) ["s"] 1000).overall = "neutral" := by
  have key : ∀ (p : String → SentenceScores) (S : List String) (m : Nat),
      ((analyze_sentiment p S m).overall = "positive" ↔
        5/100 ≤ meanCompound ((sample_sentences S m).map p)) ∧
      ((analyze_sentiment p S m).overall = "negative" ↔
        meanCompound ((sample_sentences S m).map p) ≤ -(5/100)) ∧
      ((analyze_sentiment p S m).overall = "neutral" ↔
        (-(5/100) < meanCompound ((sample_sentences S m).map p) ∧
          meanCompound ((sample_sentences S m).map p) < 5/100)) := by
    intro p S m
    dsimp only [analyze_sentiment, meanCompound]
    by_cases h0 : ((sample_sentences S m).map p).length = 0
    · rw [if_pos h0, if_pos h0]
      refine ⟨?_, ?_, ?_⟩
      · exact iff_of_false (by dsimp only; decide) (by norm_num)
      · exact iff_of_false (by dsimp only; decide) (by norm_num)
      · exact iff_of_true (by dsimp only) (by norm_num)
    · rw [if_neg h0, if_neg h0]
      split_ifs with h1 h2
      · refine ⟨iff_of_true (by dsimp only) h1, ?_, ?_⟩
        · refine iff_of_false (by dsimp only; decide) ?_
          intro hc
          have : (5:ℚ)/100 ≤ -(5/100) := le_trans h1 hc
          norm_num at this
        · refine iff_of_false (by dsimp only; decide) ?_
          rintro ⟨-, hc⟩
          exact absurd (lt_of_le_of_lt h1 hc) (lt_irrefl _)
      · refine ⟨iff_of_false (by dsimp only; decide) (fun hc => h1 hc), iff_of_true (by dsimp only) h2, ?_⟩
        refine iff_of_false (by dsimp only; decide) ?_
        rintro ⟨hc, -⟩
        exact absurd (lt_of_le_of_lt h2 hc) (by norm_num)
      · refine ⟨iff_of_false (by dsimp only; decide) (fun hc => h1 hc), ?_, ?_⟩
        · exact iff_of_false (by dsimp only; decide) (fun hc => h2 hc)
        · exact iff_of_true (by dsimp only) ⟨lt_of_not_le h2, lt_of_not_le h1⟩
  obtain ⟨k1, k2, k3⟩ := key polarity sentences n
  refine ⟨k1, k2, k3, ?_, ?_, ?_, ?_⟩
  · intro hS
    subst hS
    refine ⟨?_, rfl⟩
    dsimp only [analyze_sentiment, sample_sentences]
    norm_num
  · refine ((key _ _ _).1).mpr ?_
    dsimp only [meanCompound, sample_sentences]
    norm_num
  · refine ((key _ _ _).2.1).mpr ?_
    dsimp only [meanCompound, sample_sentences]
    norm_num
  · refine ((key _ _ _).2.2).mpr ?_
    dsimp only [meanCompound, sample_sentences]
    norm_num

/-- Witness for C4: the zero-filled no-sentence case classifies as
`"neutral"` with compound 0. -/
theorem C4_sentiment_label_witness :
    (analyze_sentiment (fun _ => ⟨0, 0, 0, 0⟩) ([] : List String) 5).overall = "neutral" ∧
    (analyze_sentiment (fun _ => ⟨0, 0, 0, 0⟩) ([] : List String) 5).compound = 0 :=
  (C4_sentiment_label (fun _ => ⟨0, 0, 0, 0⟩) [] 5).2.2.2.1 rfl

/-- C6: in the statistics summary, the unique-word count never exceeds the
total word count, lexical diversity lies in `[0, 1]` (and is 0 when there
are no words), and the average sentence length is 0 when there are no
sentences. -/
theorem C6_statistics (text : String) (sentences tokens : List String) :
    (calculate_text_statistics text sentences tokens).unique_words ≤
      (calculate_text_statistics text sentences tokens).total_words ∧
    0 ≤ (calculate_text_statistics text sentences tokens).lexical_diversity ∧
    (calculate_text_statistics text sentences tokens).lexical_diversity ≤ 1 ∧
    (pySplit text = [] →
      (calculate_text_statistics text sentences tokens).lexical_diversity = 0) ∧
    (sentences = [] →
      (calculate_text_statistics text sentences tokens).avg_sentence_length = 0) := by
  dsimp only [calculate_text_statistics]
  have hle : ((((pySplit text).filter pyIsAlpha).map
      (fun w => w.map Char.toLower)).dedup).length ≤ (pySplit text).length := by
    calc ((((pySplit text).filter pyIsAlpha).map (fun w => w.map Char.toLower)).dedup).length
        ≤ (((pySplit text).filter pyIsAlpha).map (fun w => w.map Char.toLower)).length :=
          (List.dedup_sublist _).length_le
      _ = ((pySplit text).filter pyIsAlpha).length := List.length_map _ _
      _ ≤ (pySplit text).length := List.length_filter_le _ _
  refine ⟨hle, ?_, ?_, ?_, ?_⟩
  · have h0 : ((0:ℤ) : ℚ) ≤
        (if (pySplit text).length = 0 then 0
         else ((((pySplit text).filter pyIsAlpha).map
            (fun w => w.map Char.toLower)).dedup.length : ℚ) / (pySplit text).length) := by
      split
      · norm_num
      · positivity
    have := le_roundTo (d := 4) h0
    simpa using this
  · have h1 :
        (if (pySplit text).length = 0 then (0:ℚ)
         else ((((pySplit text).filter pyIsAlpha).map
            (fun w => w.map Char.toLower)).dedup.length : ℚ) / (pySplit text).length) ≤
          ((1:ℤ) : ℚ) := by
      split
      · norm_num
      next h =>
        push_cast
        rw [div_le_one (by exact_mod_cast Nat.pos_of_ne_zero h)]
        exact_mod_cast hle
    have := roundTo_le (d := 4) h1
    simpa using this
  · intro h
    rw [h]
    simp only [List.length_nil, if_pos rfl]
    exact roundTo_zero 4
  · intro h
    rw [h]
    simp only [List.length_nil, if_pos rfl]
    exact roundTo_zero 2

/-- Witness for C6 at a concrete text. -/
theorem C6_statistics_witness :
    (calculate_text_statistics "Hello hello world" ["Hello hello world."] []).unique_words ≤
      (calculate_text_statistics "Hello hello world" ["Hello hello world."] []).total_words ∧
    0 ≤ (calculate_text_statistics "Hello hello world" ["Hello hello world."] []).lexical_diversity ∧
    (calculate_text_statistics "Hello hello world" ["Hello hello world."] []).lexical_diversity ≤ 1 ∧
    (pySplit "Hello hello world" = [] →
      (calculate_text_statistics "Hello hello world" ["Hello hello world."] []).lexical_diversity = 0) ∧
    (["Hello hello world."] = ([] : List String) →
      (calculate_text_statistics "Hello hello world" ["Hello hello world."] []).avg_sentence_length = 0) :=
  C6_statistics "Hello hello world" ["Hello hello world."] []

/-! ### Extractor claims -/

theorem extract_none_iff (content : List Char) :
    extract_clean_text content = none ↔
      (searchMarker "START" content = none ∨ searchMarker "END" content = none) := by
  unfold extract_clean_text
  cases hs : searchMarker "START" content <;>
    cases he : searchMarker "END" content <;> simp

/-- C7: whenever both markers are found, extraction returns exactly the
content strictly between the end of the start match and the start of the
end match, stripped of surrounding whitespace; on the spec's synthetic
file the extracted text is exactly `"BODY"`. -/
theorem C7_extraction (content : List Char) (ss se es ee : Nat)
    (hstart : searchMarker "START" content = some (ss, se))
    (hend : searchMarker "END" content = some (es, ee)) :
    extract_clean_text content =
      some (pyStrip ((content.drop se).take (es - se))) ∧
    extract_clean_text exGutenberg = some "BODY".data := by
  constructor
  · unfold extract_clean_text
    rw [hstart, hend]
  · decide

/-- Witness for C7: on the synthetic file the start marker matches with
span `(0, 50)` and the end marker with span `(58, 106)`. -/
theorem C7_extraction_witness :
    extract_clean_text exGutenberg =
      some (pyStrip ((exGutenberg.drop 50).take (58 - 50))) ∧
    extract_clean_text exGutenberg = some "BODY".data :=
  C7_extraction exGutenberg 0 50 58 106 (by decide) (by decide)

/-- C8 counterexample: the pipeline does NOT signal an extraction failure
exactly when a marker is absent — on a file whose two delimiter lines are
adjacent, both markers are present and the failure branch is still
taken. -/
theorem C8_counterexample :
    ¬ (∀ content : List Char, (processFile content).failed = true ↔
        (searchMarker "START" content = none ∨
          searchMarker "END" content = none)) := by
  intro h
  have h2 := (h exEmptyBody).mp (by decide)
  revert h2
  decide

/-- C8 amended: if a marker is absent the file is processed as a failure
with the delimiter warning and no output; in general the failure branch is
taken exactly when a marker is absent or the extracted text strips to
empty; the output file is written exactly when the file did not fail; and
the run processes every file (no per-file failure is fatal). -/
theorem C8_extraction_failure (content : List Char) (files : List (List Char)) :
    ((searchMarker "START" content = none ∨ searchMarker "END" content = none) →
      processFile content = ⟨false, true, true⟩) ∧
    ((processFile content).failed = true ↔
      (searchMarker "START" content = none ∨ searchMarker "END" content = none ∨
        extract_clean_text content = some [])) ∧
    ((processFile content).wrote = true ↔ (processFile content).failed = false) ∧
    (extractorRun files).length = files.length := by
  refine ⟨?_, ?_, ?_, List.length_map _ _⟩
  · intro h
    unfold processFile
    rw [(extract_none_iff content).mpr h]
  · unfold processFile
    cases hx : extract_clean_text content with
    | none =>
      refine iff_of_true rfl ?_
      rcases (extract_none_iff content).mp hx with h | h
      · exact Or.inl h
      · exact Or.inr (Or.inl h)
    | some t =>
      dsimp only
      by_cases ht : t = []
      · subst ht
        rw [if_pos rfl]
        exact iff_of_true rfl (Or.inr (Or.inr rfl))
      · rw [if_neg ht]
        refine iff_of_false (by decide) ?_
        rintro (h | h | h)
        · rw [(extract_none_iff content).mpr (Or.inl h)] at hx
          cases hx
        · rw [(extract_none_iff content).mpr (Or.inr h)] at hx
          cases hx
        · exact ht (Option.some.inj h)
  · unfold processFile
    cases hx : extract_clean_text content with
    | none => exact iff_of_false (by decide) (by decide)
    | some t =>
      dsimp only
      by_cases ht : t = []
      · subst ht
        rw [if_pos rfl]
        exact iff_of_false (by decide) (by decide)
      · rw [if_neg ht]
        exact iff_of_true rfl rfl

/-- Witness for C8 (amended) at a marker-free file and the empty run. -/
theorem C8_extraction_failure_witness :
    ((searchMarker "START" "no markers".data = none ∨
        searchMarker "END" "no markers".data = none) →
      processFile "no markers".data = ⟨false, true, true⟩) ∧
    ((processFile "no markers".data).failed = true ↔
      (searchMarker "START" "no markers".data = none ∨
        searchMarker "END" "no markers".data = none ∨
        extract_clean_text "no markers".data = some [])) ∧
    ((processFile "no markers".data).wrote = true ↔
      (processFile "no markers".data).failed = false) ∧
    (extractorRun []).length = ([] : List (List Char)).length :=
  C8_extraction_failure "no markers".data []

/-- C10: when both delimiters are found but the text strictly between them
strips to the empty string, `extract_clean_text` returns the empty string
and `main` treats the file as a failed extraction: no output is written,
no delimiter warning is printed, and the failure branch is taken. -/
theorem C10_empty_body (content : List Char) (ss se es ee : Nat)
    (hstart : searchMarker "START" content = some (ss, se))
    (hend : searchMarker "END" content = some (es, ee))
    (hempty : pyStrip ((content.drop se).take (es - se)) = []) :
    extract_clean_text content = some [] ∧
    processFile content = ⟨false, false, true⟩ := by
  have hx : extract_clean_text content = some [] := by
    unfold extract_clean_text
    rw [hstart, hend]
    dsimp only
    rw [hempty]
  refine ⟨hx, ?_⟩
  unfold processFile
  rw [hx]
  rfl

/-- Witness for C10: the file whose delimiter lines are adjacent. -/
theorem C10_empty_body_witness :
    extract_clean_text exEmptyBody = some [] ∧
    processFile exEmptyBody = ⟨false, false, true⟩ :=
  C10_empty_body exEmptyBody 0 46 47 91 (by decide) (by decide) (by decide)

/-! ### First-seen order, counters, stable sorting -/

theorem mem_firstOccs {α : Type} [DecidableEq α] (l : List α) :
    ∀ (seen : List α) (x : α), x ∈ firstOccs seen l ↔ x ∈ l ∧ x ∉ seen := by
  induction l with
  | nil => intro seen x; simp [firstOccs]
  | cons y ys ih =>
    intro seen x
    by_cases hy : y ∈ seen
    · simp only [firstOccs, if_pos hy, ih, List.mem_cons]
      constructor
      · rintro ⟨hx, hns⟩
        exact ⟨Or.inr hx, hns⟩
      · rintro ⟨hx | hx, hns⟩
        · exact absurd (hx ▸ hy) hns
        · exact ⟨hx, hns⟩
    · simp only [firstOccs, if_neg hy, List.mem_cons, ih]
      constructor
      · rintro (rfl | ⟨hx, hns⟩)
        · exact ⟨Or.inl rfl, hy⟩
        · exact ⟨Or.inr hx, fun hc => hns (Or.inr hc)⟩
      · rintro ⟨rfl | hx, hns⟩
        · exact Or.inl rfl
        · by_cases hxy : x = y
          · exact Or.inl hxy
          · exact Or.inr ⟨hx, fun hc => hc.elim hxy hns⟩

theorem nodup_firstOccs {α : Type} [DecidableEq α] (l : List α) :
    ∀ seen : List α, (firstOccs seen l).Nodup := by
  induction l with
  | nil => intro seen; simp [firstOccs]
  | cons y ys ih =>
    intro seen
    by_cases hy : y ∈ seen
    · simpa only [firstOccs, if_pos hy] using ih seen
    · simp only [firstOccs, if_neg hy]
      refine List.nodup_cons.mpr ⟨?_, ih (y :: seen)⟩
      intro hc
      exact ((mem_firstOccs ys (y :: seen) y).mp hc).2 (List.mem_cons_self y seen)

theorem firstOccs_pairwise_indexOf {α : Type} [DecidableEq α] (l : List α) :
    ∀ seen : List α,
      (firstOccs seen l).Pairwise (fun a b => l.indexOf a < l.indexOf b) := by
  induction l with
  | nil => intro seen; simp [firstOccs]
  | cons y ys ih =>
    intro seen
    by_cases hy : y ∈ seen
    · simp only [firstOccs, if_pos hy]
      refine (ih seen).imp_of_mem ?_
      intro a b ha hb hab
      have ha' : y ≠ a := fun h => ((mem_firstOccs ys seen a).mp ha).2 (h ▸ hy)
      have hb' : y ≠ b := fun h => ((mem_firstOccs ys seen b).mp hb).2 (h ▸ hy)
      rw [List.indexOf_cons_ne _ ha', List.indexOf_cons_ne _ hb']
      exact Nat.succ_lt_succ hab
    · simp only [firstOccs, if_neg hy]
      refine List.pairwise_cons.mpr ⟨?_, ?_⟩
      · intro b hb
        have hb' : y ≠ b := fun h =>
          ((mem_firstOccs ys (y :: seen) b).mp hb).2 (h ▸ List.mem_cons_self y seen)
        rw [List.indexOf_cons_self, List.indexOf_cons_ne _ hb']
        exact Nat.succ_pos _
      · refine (ih (y :: seen)).imp_of_mem ?_
        intro a b ha hb hab
        have ha' : y ≠ a := fun h =>
          ((mem_firstOccs ys (y :: seen) a).mp ha).2 (h ▸ List.mem_cons_self y seen)
        have hb' : y ≠ b := fun h =>
          ((mem_firstOccs ys (y :: seen) b).mp hb).2 (h ▸ List.mem_cons_self y seen)
        rw [List.indexOf_cons_ne _ ha', List.indexOf_cons_ne _ hb']
        exact Nat.succ_lt_succ hab

theorem counter_mem {α : Type} [DecidableEq α] {l : List α} {wc : α × Nat}
    (h : wc ∈ counter l) : wc.1 ∈ l ∧ wc.2 = l.count wc.1 := by
  unfold counter at h
  rcases List.mem_map.mp h with ⟨w, hw, rfl⟩
  exact ⟨((mem_firstOccs l [] w).mp hw).1, rfl⟩

theorem mem_counter_key {α : Type} [DecidableEq α] {l : List α} {w : α} (h : w ∈ l) :
    (w, l.count w) ∈ counter l := by
  unfold counter
  exact List.mem_map_of_mem _ ((mem_firstOccs l [] w).mpr ⟨h, List.not_mem_nil w⟩)

theorem counter_keys {α : Type} [DecidableEq α] (l : List α) :
    (counter l).map Prod.fst = firstOccs [] l := by
  unfold counter
  rw [List.map_map]
  exact List.map_id _

theorem counter_nodup {α : Type} [DecidableEq α] (l : List α) : (counter l).Nodup := by
  refine List.Nodup.of_map Prod.fst ?_
  rw [counter_keys]
  exact nodup_firstOccs l []

theorem counter_length {α : Type} [DecidableEq α] (l : List α) :
    (counter l).length = l.dedup.length := by
  have h1 : (counter l).length = (firstOccs [] l).length := by
    rw [← counter_keys, List.length_map]
  have hp : List.Perm (firstOccs [] l) l.dedup := by
    refine (List.perm_ext_iff_of_nodup (nodup_firstOccs l []) (List.nodup_dedup l)).mpr ?_
    intro x
    rw [mem_firstOccs, List.mem_dedup]
    simp
  rw [h1, hp.length_eq]

theorem hasKey_counter {α : Type} [DecidableEq α] (w : α) (l : List α) :
    hasKey w (counter l) = decide (w ∈ l) := by
  by_cases h : w ∈ l
  · rw [decide_eq_true h]
    unfold hasKey
    rw [List.any_eq_true]
    exact ⟨(w, l.count w), mem_counter_key h, decide_eq_true rfl⟩
  · rw [decide_eq_false h]
    unfold hasKey
    rw [List.any_eq_false]
    rintro e he
    intro hd
    exact h ((of_decide_eq_true hd) ▸ (counter_mem he).1)

theorem pair_sublist_of_get {α : Type} (l : List α) :
    ∀ (i j : Nat) (hi : i < l.length) (hj : j < l.length), i < j →
      List.Sublist [l.get ⟨i, hi⟩, l.get ⟨j, hj⟩] l := by
  induction l with
  | nil => intro i j hi _ _; simp at hi
  | cons x xs ih =>
    intro i j hi hj hij
    cases i with
    | zero =>
      cases j with
      | zero => omega
      | succ j =>
        exact List.Sublist.cons₂ x (List.singleton_sublist.mpr (xs.get_mem _ _))
    | succ i =>
      cases j with
      | zero => omega
      | succ j =>
        exact (ih i j (Nat.lt_of_succ_lt_succ hi) (Nat.lt_of_succ_lt_succ hj)
          (Nat.lt_of_succ_lt_succ hij)).cons x

theorem pair_sublist_antisymm {α : Type} {a b : α} {l : List α} (hnd : l.Nodup)
    (h1 : List.Sublist [a, b] l) (h2 : List.Sublist [b, a] l) : a = b := by
  induction l with
  | nil => cases h1
  | cons x xs ih =>
    cases h1 with
    | cons _ h1' =>
      cases h2 with
      | cons _ h2' => exact ih (List.Nodup.of_cons hnd) h1' h2'
      | cons₂ _ h2' =>
        exact absurd (h1'.subset (by simp)) (List.nodup_cons.mp hnd).1
    | cons₂ _ h1' =>
      cases h2 with
      | cons _ h2' =>
        exact absurd (h2'.subset (by simp)) (List.nodup_cons.mp hnd).1
      | cons₂ _ h2' => rfl

theorem mem_pair_sublist {α : Type} {a b : α} {l : List α}
    (ha : a ∈ l) (hb : b ∈ l) (hab : a ≠ b) :
    List.Sublist [a, b] l ∨ List.Sublist [b, a] l := by
  induction l with
  | nil => cases ha
  | cons x xs ih =>
    rcases List.mem_cons.mp ha with rfl | ha'
    · have hb' : b ∈ xs := by
        rcases List.mem_cons.mp hb with rfl | h
        · exact absurd rfl hab
        · exact h
      exact Or.inl (List.Sublist.cons₂ a (List.singleton_sublist.mpr hb'))
    · rcases List.mem_cons.mp hb with rfl | hb'
      · exact Or.inr (List.Sublist.cons₂ b (List.singleton_sublist.mpr ha'))
      · rcases ih ha' hb' with h | h
        · exact Or.inl (h.cons x)
        · exact Or.inr (h.cons x)

/-- Stability of the embedded Python sort: two entries of the sorted list
with equal counts appear, in that order, as a sublist of the input — i.e.
ties keep the input's relative order. -/
theorem sort_ties_pair_sublist {α : Type} {l : List (α × Nat)} (hnd : l.Nodup)
    {i j : Nat} (hi : i < (List.insertionSort byCount l).length)
    (hj : j < (List.insertionSort byCount l).length) (hij : i < j)
    (heq : ((List.insertionSort byCount l).get ⟨i, hi⟩).2 =
      ((List.insertionSort byCount l).get ⟨j, hj⟩).2) :
    List.Sublist [(List.insertionSort byCount l).get ⟨i, hi⟩,
      (List.insertionSort byCount l).get ⟨j, hj⟩] l := by
  have hperm : List.Perm (List.insertionSort byCount l) l :=
    List.perm_insertionSort byCount l
  have hsnd : (List.insertionSort byCount l).Nodup := hperm.nodup_iff.mpr hnd
  have hab : (List.insertionSort byCount l).get ⟨i, hi⟩ ≠
      (List.insertionSort byCount l).get ⟨j, hj⟩ := by
    intro h
    have hfin := (List.Nodup.get_inj_iff hsnd).mp h
    have : i = j := congrArg Fin.val hfin
    omega
  have hpair_s := pair_sublist_of_get (List.insertionSort byCount l) i j hi hj hij
  have hamem : (List.insertionSort byCount l).get ⟨i, hi⟩ ∈ l :=
    hperm.mem_iff.mp (List.get_mem _ _ _)
  have hbmem : (List.insertionSort byCount l).get ⟨j, hj⟩ ∈ l :=
    hperm.mem_iff.mp (List.get_mem _ _ _)
  rcases mem_pair_sublist hamem hbmem hab with h | h
  · exact h
  · exfalso
    have hba : List.Sublist
        [(List.insertionSort byCount l).get ⟨j, hj⟩,
          (List.insertionSort byCount l).get ⟨i, hi⟩]
        (List.insertionSort byCount l) :=
      List.pair_sublist_insertionSort (le_of_eq heq) h
    exact hab (pair_sublist_antisymm hsnd hpair_s hba)

/-- C5: the frequency builder returns `min top_n (number of distinct
tokens)` entries (hence at most `top_n`), each pairing a token with its
exact occurrence count; counts are non-increasing in iteration order; any
token left out of the table has a count no larger than every included
count; and among entries with equal counts the first-encountered token
comes first. -/
theorem C5_word_frequency (tokens : List String) (top_n : Nat)
    (r : List (String × Nat)) (hr : r = build_word_frequency tokens top_n) :
    r.length ≤ top_n ∧
    r.length = min top_n tokens.dedup.length ∧
    List.Sorted byCount r ∧
    (∀ wc ∈ r, wc.1 ∈ tokens ∧ wc.2 = tokens.count wc.1) ∧
    (∀ w ∈ tokens, (∀ c : Nat, (w, c) ∉ r) → ∀ wc ∈ r, tokens.count w ≤ wc.2) ∧
    (∀ (i j : Nat) (hi : i < r.length) (hj : j < r.length), i < j →
      (r.get ⟨i, hi⟩).2 = (r.get ⟨j, hj⟩).2 →
      tokens.indexOf (r.get ⟨i, hi⟩).1 < tokens.indexOf (r.get ⟨j, hj⟩).1) := by
  subst hr
  unfold build_word_frequency most_common
  refine ⟨List.length_take_le _ _, ?_, ?_, ?_, ?_, ?_⟩
  · rw [List.length_take, List.length_insertionSort, counter_length]
  · exact List.Pairwise.sublist (List.take_sublist _ _)
      (List.sorted_insertionSort byCount _)
  · intro wc hwc
    have h1 : wc ∈ List.insertionSort byCount (counter tokens) :=
      (List.take_sublist _ _).subset hwc
    have h2 : wc ∈ counter tokens :=
      (List.perm_insertionSort byCount _).mem_iff.mp h1
    exact counter_mem h2
  · intro w hw hnot wc hwc
    have hmem : (w, tokens.count w) ∈ List.insertionSort byCount (counter tokens) :=
      (List.perm_insertionSort byCount _).mem_iff.mpr (mem_counter_key hw)
    have hsplit := List.take_append_drop top_n (List.insertionSort byCount (counter tokens))
    have hdropmem : (w, tokens.count w) ∈
        (List.insertionSort byCount (counter tokens)).drop top_n := by
      rcases List.mem_append.mp (hsplit ▸ hmem) with h | h
      · exact absurd h (hnot _)
      · exact h
    have hsorted : List.Pairwise byCount
        ((List.insertionSort byCount (counter tokens)).take top_n ++
          (List.insertionSort byCount (counter tokens)).drop top_n) := by
      rw [hsplit]
      exact List.sorted_insertionSort byCount _
    exact (List.pairwise_append.mp hsorted).2.2 wc hwc _ hdropmem
  · intro i j hi hj hij heq
    have hi' : i < (List.insertionSort byCount (counter tokens)).length :=
      lt_of_lt_of_le hi (by rw [List.length_take]; exact Nat.min_le_right _ _)
    have hj' : j < (List.insertionSort byCount (counter tokens)).length :=
      lt_of_lt_of_le hj (by rw [List.length_take]; exact Nat.min_le_right _ _)
    have hgi : ((List.insertionSort byCount (counter tokens)).take top_n).get ⟨i, hi⟩ =
        (List.insertionSort byCount (counter tokens)).get ⟨i, hi'⟩ := by
      simp [List.get_eq_getElem]
    have hgj : ((List.insertionSort byCount (counter tokens)).take top_n).get ⟨j, hj⟩ =
        (List.insertionSort byCount (counter tokens)).get ⟨j, hj'⟩ := by
      simp [List.get_eq_getElem]
    rw [hgi, hgj] at heq ⊢
    have hpair := sort_ties_pair_sublist (counter_nodup tokens) hi' hj' hij heq
    have hkeys : List.Sublist
        [((List.insertionSort byCount (counter tokens)).get ⟨i, hi'⟩).1,
          ((List.insertionSort byCount (counter tokens)).get ⟨j, hj'⟩).1]
        (firstOccs [] tokens) := by
      rw [← counter_keys]
      exact hpair.map Prod.fst
    have hpw : List.Pairwise (fun a b => tokens.indexOf a < tokens.indexOf b)
        [((List.insertionSort byCount (counter tokens)).get ⟨i, hi'⟩).1,
          ((List.insertionSort byCount (counter tokens)).get ⟨j, hj'⟩).1] :=
      List.Pairwise.sublist hkeys (firstOccs_pairwise_indexOf tokens [])
    exact (List.pairwise_cons.mp hpw).1 _ (List.mem_singleton_self _)

/-- Witness for C5 at `tokens = [b, a, b, c, a, d]`, `top_n = 3`:
the table is `[(b, 2), (a, 2), (c, 1)]`. -/
theorem C5_word_frequency_witness :
    ([("b", 2), ("a", 2), ("c", 1)] : List (String × Nat)).length ≤ 3 ∧
    ([("b", 2), ("a", 2), ("c", 1)] : List (String × Nat)).length =
      min 3 (["b", "a", "b", "c", "a", "d"] : List String).dedup.length ∧
    List.Sorted byCount ([("b", 2), ("a", 2), ("c", 1)] : List (String × Nat)) ∧
    (∀ wc ∈ ([("b", 2), ("a", 2), ("c", 1)] : List (String × Nat)),
      wc.1 ∈ (["b", "a", "b", "c", "a", "d"] : List String) ∧
      wc.2 = (["b", "a", "b", "c", "a", "d"] : List String).count wc.1) ∧
    (∀ w ∈ (["b", "a", "b", "c", "a", "d"] : List String),
      (∀ c : Nat, (w, c) ∉ ([("b", 2), ("a", 2), ("c", 1)] : List (String × Nat))) →
      ∀ wc ∈ ([("b", 2), ("a", 2), ("c", 1)] : List (String × Nat)),
        (["b", "a", "b", "c", "a", "d"] : List String).count w ≤ wc.2) ∧
    (∀ (i j : Nat) (hi : i < ([("b", 2), ("a", 2), ("c", 1)] : List (String × Nat)).length)
      (hj : j < ([("b", 2), ("a", 2), ("c", 1)] : List (String × Nat)).length), i < j →
      (([("b", 2), ("a", 2), ("c", 1)] : List (String × Nat)).get ⟨i, hi⟩).2 =
        (([("b", 2), ("a", 2), ("c", 1)] : List (String × Nat)).get ⟨j, hj⟩).2 →
      (["b", "a", "b", "c", "a", "d"] : List String).indexOf
          (([("b", 2), ("a", 2), ("c", 1)] : List (String × Nat)).get ⟨i, hi⟩).1 <
        (["b", "a", "b", "c", "a", "d"] : List String).indexOf
          (([("b", 2), ("a", 2), ("c", 1)] : List (String × Nat)).get ⟨j, hj⟩).1) :=
  C5_word_frequency ["b", "a", "b", "c", "a", "d"] 3 [("b", 2), ("a", 2), ("c", 1)]
    (by decide)

/-! ### Distinctive-words lemmas -/

theorem counter_eq {α : Type} [DecidableEq α] (l : List α) :
    counter l = (firstOccs [] l).map (fun w => (w, l.count w)) := rfl

theorem firstOccs_perm_dedup {α : Type} [DecidableEq α] (l : List α) :
    List.Perm (firstOccs [] l) l.dedup := by
  refine (List.perm_ext_iff_of_nodup (nodup_firstOccs l []) (List.nodup_dedup l)).mpr ?_
  intro x
  rw [mem_firstOccs, List.mem_dedup]
  simp

theorem nodup_keys_eq {ι β : Type} {l : List (ι × β)} (hnd : (l.map Prod.fst).Nodup)
    {a : ι} {b c : β} (h1 : (a, b) ∈ l) (h2 : (a, c) ∈ l) : b = c := by
  induction l with
  | nil => cases h1
  | cons x xs ih =>
    rw [List.map_cons] at hnd
    have hx := List.nodup_cons.mp hnd
    rcases List.mem_cons.mp h1 with he1 | h1'
    · rcases List.mem_cons.mp h2 with he2 | h2'
      · rw [← he1] at he2
        exact (Prod.mk.injEq _ _ _ _).mp he2.symm |>.2
      · exfalso
        refine hx.1 ?_
        have : a ∈ xs.map Prod.fst := List.mem_map_of_mem Prod.fst h2'
        rw [← he1]
        exact this
    · rcases List.mem_cons.mp h2 with he2 | h2'
      · exfalso
        refine hx.1 ?_
        have : a ∈ xs.map Prod.fst := List.mem_map_of_mem Prod.fst h1'
        rw [← he2]
        exact this
      · exact ih hx.2 h1' h2'

theorem appears_in_eq {ι α : Type} [DecidableEq ι] [DecidableEq α]
    (all_tokens : List (ι × List α)) (tid : ι) (w : α) :
    appears_in (all_tokens.map (fun p => (p.1, counter p.2))) tid w =
      appearsInTokens all_tokens tid w := by
  unfold appears_in appearsInTokens
  rw [List.countP_map]
  refine List.countP_congr ?_
  intro p _
  simp only [Function.comp_apply, decide_eq_true_eq, Bool.and_eq_true]
  rw [hasKey_counter]
  simp

theorem mem_scoresList {ι α : Type} [DecidableEq ι] [DecidableEq α]
    {all_tokens : List (ι × List α)} {tid : ι} {toks : List α} {ws : α × Nat}
    (h : ws ∈ scoresList (all_tokens.map (fun p => (p.1, counter p.2))) tid (counter toks)) :
    ws.1 ∈ toks ∧ appearsInTokens all_tokens tid ws.1 < all_tokens.length - 1 ∧
      ws.2 = toks.count ws.1 * (all_tokens.length - appearsInTokens all_tokens tid ws.1) := by
  unfold scoresList at h
  rcases List.mem_map.mp h with ⟨wc, hwc, rfl⟩
  rcases List.mem_filter.mp hwc with ⟨hwc', hpred⟩
  have hcm := counter_mem hwc'
  have helig := of_decide_eq_true hpred
  rw [appears_in_eq, List.length_map] at helig
  refine ⟨hcm.1, helig, ?_⟩
  dsimp only
  rw [hcm.2, appears_in_eq, List.length_map]

theorem scoresList_mem_of {ι α : Type} [DecidableEq ι] [DecidableEq α]
    {all_tokens : List (ι × List α)} {tid : ι} {toks : List α} {w : α}
    (hw : w ∈ toks)
    (helig : appearsInTokens all_tokens tid w < all_tokens.length - 1) :
    (w, toks.count w * (all_tokens.length - appearsInTokens all_tokens tid w)) ∈
      scoresList (all_tokens.map (fun p => (p.1, counter p.2))) tid (counter toks) := by
  unfold scoresList
  refine List.mem_map.mpr ⟨(w, toks.count w), ?_, ?_⟩
  · refine List.mem_filter.mpr ⟨mem_counter_key hw, ?_⟩
    refine decide_eq_true ?_
    rw [appears_in_eq, List.length_map]
    exact helig
  · dsimp only
    rw [appears_in_eq, List.length_map]

theorem scoresList_keys_sublist {ι α : Type} [DecidableEq ι] [DecidableEq α]
    (all_tokens : List (ι × List α)) (tid : ι) (toks : List α) :
    List.Sublist
      ((scoresList (all_tokens.map (fun p => (p.1, counter p.2))) tid (counter toks)).map
        Prod.fst)
      (firstOccs [] toks) := by
  unfold scoresList
  rw [List.map_map]
  have hfun : (Prod.fst ∘ fun wc : α × Nat =>
      (wc.1, wc.2 * ((all_tokens.map (fun p => (p.1, counter p.2))).length -
        appears_in (all_tokens.map (fun p => (p.1, counter p.2))) tid wc.1))) =
      (Prod.fst : α × Nat → α) := rfl
  rw [hfun, ← counter_keys]
  exact List.Sublist.map Prod.fst (List.filter_sublist (counter toks))

theorem scoresList_nodup {ι α : Type} [DecidableEq ι] [DecidableEq α]
    (all_tokens : List (ι × List α)) (tid : ι) (toks : List α) :
    (scoresList (all_tokens.map (fun p => (p.1, counter p.2))) tid (counter toks)).Nodup := by
  refine List.Nodup.of_map Prod.fst ?_
  exact (scoresList_keys_sublist all_tokens tid toks).nodup (nodup_firstOccs toks [])

theorem scoresList_length {ι α : Type} [DecidableEq ι] [DecidableEq α]
    (all_tokens : List (ι × List α)) (tid : ι) (toks : List α) :
    (scoresList (all_tokens.map (fun p => (p.1, counter p.2))) tid (counter toks)).length =
      toks.dedup.countP
        (fun w => decide (appearsInTokens all_tokens tid w < all_tokens.length - 1)) := by
  unfold scoresList
  rw [List.length_map, ← List.countP_eq_length_filter]
  rw [counter_eq toks]
  rw [List.countP_map, ← (firstOccs_perm_dedup toks).countP_eq]
  refine List.countP_congr ?_
  intro w _
  simp only [Function.comp_apply, decide_eq_true_eq]
  rw [appears_in_eq, List.length_map]

/-- C1: for a corpus with `total_text_count` texts, each entry of a text's
distinctive-word ranking is an eligible word `w` of the text (eligible
means `appears_in < total_text_count − 1`, where `appears_in` counts the
other texts whose vocabulary contains `w`) scored
`count_in_T × (total_text_count − appears_in)`; the ranking holds
`min top_n (number of eligible distinct words)` entries in non-increasing
score order, omitted eligible words score no higher than every kept entry,
ties keep first-seen order over the text's frequency table; and on the
spec's example corpus the ranking for `A` is `[("whale", 4), ("sea", 2)]`. -/
theorem C1_distinctive_words (all_tokens : List (String × List String)) (top_n : Nat)
    (tid : String) (toks : List String) (r : List (String × Nat))
    (hmem : (tid, toks) ∈ all_tokens)
    (hnd : (all_tokens.map Prod.fst).Nodup)
    (hr : (tid, r) ∈ find_distinctive_words all_tokens top_n) :
    r.length ≤ top_n ∧
    r.length = min top_n (toks.dedup.countP
      (fun w => decide (appearsInTokens all_tokens tid w < all_tokens.length - 1))) ∧
    List.Sorted byCount r ∧
    (∀ ws ∈ r, ws.1 ∈ toks ∧
      appearsInTokens all_tokens tid ws.1 < all_tokens.length - 1 ∧
      ws.2 = toks.count ws.1 * (all_tokens.length - appearsInTokens all_tokens tid ws.1)) ∧
    (∀ w ∈ toks, appearsInTokens all_tokens tid w < all_tokens.length - 1 →
      (∀ c : Nat, (w, c) ∉ r) → ∀ ws ∈ r,
        toks.count w * (all_tokens.length - appearsInTokens all_tokens tid w) ≤ ws.2) ∧
    (∀ (i j : Nat) (hi : i < r.length) (hj : j < r.length), i < j →
      (r.get ⟨i, hi⟩).2 = (r.get ⟨j, hj⟩).2 →
      toks.indexOf (r.get ⟨i, hi⟩).1 < toks.indexOf (r.get ⟨j, hj⟩).1) ∧
    ("A", [("whale", 4), ("sea", 2)]) ∈ find_distinctive_words exCorpus 20 := by
  have hr' : r = (List.insertionSort byCount
      (scoresList (all_tokens.map (fun p => (p.1, counter p.2))) tid
        (counter toks))).take top_n := by
    simp only [find_distinctive_words] at hr
    rcases List.mem_map.mp hr with ⟨q, hq, heq⟩
    rcases List.mem_map.mp hq with ⟨p, hp, rfl⟩
    obtain ⟨h1, h2⟩ := Prod.ext_iff.mp heq
    dsimp only at h1 h2
    have hpmem : (tid, p.2) ∈ all_tokens := by
      rw [← h1]
      simpa using hp
    have hptoks : p.2 = toks := nodup_keys_eq hnd hpmem hmem
    rw [← h2, h1, hptoks]
  refine ⟨?_, ?_, ?_, ?_, ?_, ?_, by decide⟩
  · rw [hr']
    exact List.length_take_le _ _
  · rw [hr', List.length_take, List.length_insertionSort, scoresList_length]
  · rw [hr']
    exact List.Pairwise.sublist (List.take_sublist _ _)
      (List.sorted_insertionSort byCount _)
  · intro ws hws
    rw [hr'] at hws
    have h1 : ws ∈ List.insertionSort byCount
        (scoresList (all_tokens.map (fun p => (p.1, counter p.2))) tid (counter toks)) :=
      (List.take_sublist _ _).subset hws
    exact mem_scoresList ((List.perm_insertionSort byCount _).mem_iff.mp h1)
  · intro w hw helig hnot ws hws
    have hSmem := @scoresList_mem_of String String _ _ all_tokens tid toks w hw helig
    have hmemS : (w, toks.count w * (all_tokens.length - appearsInTokens all_tokens tid w)) ∈
        List.insertionSort byCount
          (scoresList (all_tokens.map (fun p => (p.1, counter p.2))) tid (counter toks)) :=
      (List.perm_insertionSort byCount _).mem_iff.mpr hSmem
    have hsplit := List.take_append_drop top_n (List.insertionSort byCount
      (scoresList (all_tokens.map (fun p => (p.1, counter p.2))) tid (counter toks)))
    have hdropmem : (w, toks.count w * (all_tokens.length - appearsInTokens all_tokens tid w)) ∈
        (List.insertionSort byCount
          (scoresList (all_tokens.map (fun p => (p.1, counter p.2))) tid
            (counter toks))).drop top_n := by
      rcases List.mem_append.mp (hsplit ▸ hmemS) with h | h
      · rw [← hr'] at h
        exact absurd h (hnot _)
      · exact h
    have hsorted : List.Pairwise byCount
        ((List.insertionSort byCount
          (scoresList (all_tokens.map (fun p => (p.1, counter p.2))) tid
            (counter toks))).take top_n ++
          (List.insertionSort byCount
            (scoresList (all_tokens.map (fun p => (p.1, counter p.2))) tid
              (counter toks))).drop top_n) := by
      rw [hsplit]
      exact List.sorted_insertionSort byCount _
    refine (List.pairwise_append.mp hsorted).2.2 ws ?_ _ hdropmem
    rw [← hr']
    exact hws
  · intro i j hi hj hij heq
    rw [hr'] at hi hj
    have hi' : i < (List.insertionSort byCount
        (scoresList (all_tokens.map (fun p => (p.1, counter p.2))) tid
          (counter toks))).length :=
      lt_of_lt_of_le hi (by rw [List.length_take]; exact Nat.min_le_right _ _)
    have hj' : j < (List.insertionSort byCount
        (scoresList (all_tokens.map (fun p => (p.1, counter p.2))) tid
          (counter toks))).length :=
      lt_of_lt_of_le hj (by rw [List.length_take]; exact Nat.min_le_right _ _)
    have hgi : r.get ⟨i, hr' ▸ hi⟩ = (List.insertionSort byCount
        (scoresList (all_tokens.map (fun p => (p.1, counter p.2))) tid
          (counter toks))).get ⟨i, hi'⟩ := by
      subst hr'
      simp [List.get_eq_getElem]
    have hgj : r.get ⟨j, hr' ▸ hj⟩ = (List.insertionSort byCount
        (scoresList (all_tokens.map (fun p => (p.1, counter p.2))) tid
          (counter toks))).get ⟨j, hj'⟩ := by
      subst hr'
      simp [List.get_eq_getElem]
    rw [hgi, hgj] at heq ⊢
    have hpair := sort_ties_pair_sublist (scoresList_nodup all_tokens tid toks)
      hi' hj' hij heq
    have hkeys := (hpair.map Prod.fst).trans (scoresList_keys_sublist all_tokens tid toks)
    have hpw : List.Pairwise (fun a b => toks.indexOf a < toks.indexOf b)
        [((List.insertionSort byCount
            (scoresList (all_tokens.map (fun p => (p.1, counter p.2))) tid
              (counter toks))).get ⟨i, hi'⟩).1,
          ((List.insertionSort byCount
            (scoresList (all_tokens.map (fun p => (p.1, counter p.2))) tid
              (counter toks))).get ⟨j, hj'⟩).1] :=
      List.Pairwise.sublist hkeys (firstOccs_pairwise_indexOf toks [])
    exact (List.pairwise_cons.mp hpw).1 _ (List.mem_singleton_self _)

/-- Witness for C1 at the spec's example corpus: text `A`'s ranking is
`[("whale", 4), ("sea", 2)]`. -/
theorem C1_distinctive_words_witness :
    ([("whale", 4), ("sea", 2)] : List (String × Nat)).length ≤ 20 ∧
    List.Sorted byCount ([("whale", 4), ("sea", 2)] : List (String × Nat)) ∧
    ("A", [("whale", 4), ("sea", 2)]) ∈ find_distinctive_words exCorpus 20 :=
  have h := C1_distinctive_words exCorpus 20 "A" ["whale", "whale", "sea"]
    [("whale", 4), ("sea", 2)] (by decide) (by decide) (by decide)
  ⟨h.1, h.2.2.1, h.2.2.2.2.2.2⟩

/-! ### Vocabulary-comparison lemmas -/

theorem roundTo_intCast (d : Nat) (n : ℤ) : roundTo d (n : ℚ) = n :=
  le_antisymm (roundTo_le (le_refl _)) (le_roundTo (le_refl _))

theorem mapE_ok_forward {α β : Type} {f : α → Except Unit β} {l : List α} {ys : List β}
    (h : mapE f l = .ok ys) {x : α} (hx : x ∈ l) : ∃ y ∈ ys, f x = .ok y := by
  induction l generalizing ys with
  | nil => cases hx
  | cons a as ih =>
    unfold mapE at h
    cases hfa : f a with
    | error e => rw [hfa] at h; cases h
    | ok y =>
      rw [hfa] at h
      cases hrest : mapE f as with
      | error e => rw [hrest] at h; cases h
      | ok ys' =>
        rw [hrest] at h
        obtain rfl : y :: ys' = ys := by injection h
        rcases List.mem_cons.mp hx with rfl | hx'
        · exact ⟨y, List.mem_cons_self _ _, hfa⟩
        · rcases ih hrest hx' with ⟨y', hy', hfy'⟩
          exact ⟨y', List.mem_cons_of_mem _ hy', hfy'⟩

theorem mem_of_mapE_ok {α β : Type} {f : α → Except Unit β} {l : List α} {ys : List β}
    (h : mapE f l = .ok ys) {y : β} (hy : y ∈ ys) : ∃ x ∈ l, f x = .ok y := by
  induction l generalizing ys with
  | nil =>
    unfold mapE at h
    obtain rfl : ([] : List β) = ys := by injection h
    cases hy
  | cons a as ih =>
    unfold mapE at h
    cases hfa : f a with
    | error e => rw [hfa] at h; cases h
    | ok y' =>
      rw [hfa] at h
      cases hrest : mapE f as with
      | error e => rw [hrest] at h; cases h
      | ok ys' =>
        rw [hrest] at h
        obtain rfl : y' :: ys' = ys := by injection h
        rcases List.mem_cons.mp hy with rfl | hy'
        · exact ⟨a, List.mem_cons_self _ _, hfa⟩
        · rcases ih hrest hy' with ⟨x, hx, hfx⟩
          exact ⟨x, List.mem_cons_of_mem _ hx, hfx⟩

theorem mapE_ok_of_all {α β : Type} {f : α → Except Unit β} {l : List α}
    (h : ∀ x ∈ l, ∃ y, f x = .ok y) : ∃ ys, mapE f l = .ok ys := by
  induction l with
  | nil => exact ⟨[], rfl⟩
  | cons a as ih =>
    rcases h a (List.mem_cons_self _ _) with ⟨y, hy⟩
    rcases ih (fun x hx => h x (List.mem_cons_of_mem _ hx)) with ⟨ys, hys⟩
    refine ⟨y :: ys, ?_⟩
    unfold mapE
    rw [hy, hys]

theorem mapE_error_of_mem {α β : Type} {f : α → Except Unit β} {l : List α} {x : α}
    (hx : x ∈ l) (hfx : f x = .error ()) : mapE f l = .error () := by
  induction l with
  | nil => cases hx
  | cons a as ih =>
    unfold mapE
    rcases List.mem_cons.mp hx with rfl | hx'
    · rw [hfx]
    · cases hfa : f a with
      | error e => cases e; rfl
      | ok y => rw [ih hx']

theorem toFinset_card_ne_zero {α : Type} [DecidableEq α] {l : List α} (h : l ≠ []) :
    l.toFinset.card ≠ 0 := by
  cases l with
  | nil => exact absurd rfl h
  | cons x xs =>
    have hx : x ∈ (x :: xs).toFinset := by simp
    have := Finset.card_pos.mpr ⟨x, hx⟩
    omega

theorem exceptMap_eq_ok {β γ : Type} {e : Except Unit β} {g : β → γ} {y : γ}
    (h : Except.map g e = .ok y) : ∃ b, e = .ok b ∧ y = g b := by
  cases e with
  | error err => cases h
  | ok b =>
    refine ⟨b, rfl, ?_⟩
    have : Except.ok (ε := Unit) (g b) = .ok y := h
    injection this with h'
    exact h'.symm

theorem comparePair_ok {α : Type} [DecidableEq α] {ta tb : List α} (h : ta ≠ []) :
    comparePair ta tb = .ok ⟨(ta.toFinset ∩ tb.toFinset).card,
      roundTo 2 (((ta.toFinset ∩ tb.toFinset).card : ℚ) / ta.toFinset.card * 100)⟩ := by
  unfold comparePair
  rw [if_neg (toFinset_card_ne_zero h)]

theorem comparePair_error {α : Type} [DecidableEq α] {ta tb : List α} (h : ta = []) :
    comparePair ta tb = .error () := by
  subst h
  unfold comparePair
  rw [if_pos (by simp)]

theorem compare_vocabularies_ok (all_tokens : List (String × List String))
    (hne : ∀ p ∈ all_tokens, p.2 ≠ []) :
    ∃ m, compare_vocabularies all_tokens = .ok m := by
  unfold compare_vocabularies
  refine mapE_ok_of_all ?_
  intro p hp
  have hinner : ∃ row, mapE
      (fun q => Except.map (fun v => (q.1, v)) (comparePair p.2 q.2))
      (all_tokens.filter (fun q => decide (q.1 ≠ p.1))) = .ok row := by
    refine mapE_ok_of_all ?_
    intro q _
    refine ⟨(q.1, ⟨(p.2.toFinset ∩ q.2.toFinset).card,
      roundTo 2 (((p.2.toFinset ∩ q.2.toFinset).card : ℚ) /
        p.2.toFinset.card * 100)⟩), ?_⟩
    rw [comparePair_ok (hne p hp)]
    rfl
  rcases hinner with ⟨row, hrow⟩
  refine ⟨(p.1, row), ?_⟩
  rw [hrow]
  rfl

/-- C2: for every corpus (distinct ids, nonempty token lists) and every
ordered pair of distinct text ids (A, B): the report contains an entry for
(A, B); every such entry reports `shared_words = |distinct(A) ∩ distinct(B)|`
and `overlap_percentage = shared_words / |distinct(A)| × 100` rounded to 2
decimals; `shared_words` is symmetric in A and B; the percentage is
relative to A's vocabulary and not symmetric, witnessed by a concrete
corpus with `overlap_percentage(A,B) = 50` and `overlap_percentage(B,A) = 100`. -/
theorem C2_vocabulary_overlap (all_tokens : List (String × List String))
    (hnd : (all_tokens.map Prod.fst).Nodup)
    (hne : ∀ p ∈ all_tokens, p.2 ≠ []) :
    (∃ m, compare_vocabularies all_tokens = .ok m ∧
      ∀ (A B : String) (toksA toksB : List String),
        (A, toksA) ∈ all_tokens → (B, toksB) ∈ all_tokens → A ≠ B →
        (∃ rowA recAB, (A, rowA) ∈ m ∧ (B, recAB) ∈ rowA) ∧
        (∀ rowA recAB, (A, rowA) ∈ m → (B, recAB) ∈ rowA →
          recAB.shared_words = (toksA.toFinset ∩ toksB.toFinset).card ∧
          recAB.overlap_percentage = roundTo 2
            (((toksA.toFinset ∩ toksB.toFinset).card : ℚ) /
              toksA.toFinset.card * 100)) ∧
        (∀ rowA recAB rowB recBA, (A, rowA) ∈ m → (B, recAB) ∈ rowA →
          (B, rowB) ∈ m → (A, recBA) ∈ rowB →
          recAB.shared_words = recBA.shared_words)) ∧
    (∃ vAB vBA : VocabComp,
      comparePair (α := String) ["a", "b"] ["a"] = .ok vAB ∧
      comparePair (α := String) ["a"] ["a", "b"] = .ok vBA ∧
      vAB.shared_words = vBA.shared_words ∧
      vAB.overlap_percentage ≠ vBA.overlap_percentage) := by
  have charac : ∀ (A B : String) (toksA toksB : List String)
      (m : List (String × List (String × VocabComp))),
      compare_vocabularies all_tokens = .ok m →
      (A, toksA) ∈ all_tokens → (B, toksB) ∈ all_tokens →
      ∀ rowA recAB, (A, rowA) ∈ m → (B, recAB) ∈ rowA →
        recAB = ⟨(toksA.toFinset ∩ toksB.toFinset).card,
          roundTo 2 (((toksA.toFinset ∩ toksB.toFinset).card : ℚ) /
            toksA.toFinset.card * 100)⟩ := by
    intro A B toksA toksB m hm hA hB rowA recAB hrowA hrec
    unfold compare_vocabularies at hm
    rcases mem_of_mapE_ok hm hrowA with ⟨p, hp, hfp⟩
    rcases exceptMap_eq_ok hfp with ⟨row', hrow', heqy⟩
    obtain ⟨h1, h2⟩ := Prod.ext_iff.mp heqy
    dsimp only at h1 h2
    have hpA : (A, p.2) ∈ all_tokens := by
      rw [h1]
      simpa using hp
    have hptoksA : p.2 = toksA := nodup_keys_eq hnd hpA hA
    rw [h2] at hrec
    rcases mem_of_mapE_ok hrow' hrec with ⟨q, hq, hgq⟩
    rcases exceptMap_eq_ok hgq with ⟨v, hv, heqz⟩
    obtain ⟨h3, h4⟩ := Prod.ext_iff.mp heqz
    dsimp only at h3 h4
    have hq' : q ∈ all_tokens := (List.mem_filter.mp hq).1
    have hqB : (B, q.2) ∈ all_tokens := by
      rw [h3]
      simpa using hq'
    have hqtoksB : q.2 = toksB := nodup_keys_eq hnd hqB hB
    have hne' : p.2 ≠ [] := hne p hp
    rw [comparePair_ok hne'] at hv
    injection hv with hv'
    rw [h4, ← hv', hptoksA, hqtoksB]
  have hok := compare_vocabularies_ok all_tokens hne
  rcases hok with ⟨m, hm⟩
  constructor
  · refine ⟨m, hm, ?_⟩
    intro A B toksA toksB hA hB hAB
    have hex : ∃ rowA recAB, (A, rowA) ∈ m ∧ (B, recAB) ∈ rowA := by
      have hm' := hm
      unfold compare_vocabularies at hm'
      rcases mapE_ok_forward hm' hA with ⟨y, hy, hfy⟩
      rcases exceptMap_eq_ok hfy with ⟨row, hrow, heqy⟩
      have hBfilter : (B, toksB) ∈
          all_tokens.filter (fun q => decide (q.1 ≠ (A, toksA).1)) := by
        refine List.mem_filter.mpr ⟨hB, ?_⟩
        exact decide_eq_true (fun h => hAB h.symm)
      rcases mapE_ok_forward hrow hBfilter with ⟨z, hz, hgz⟩
      rcases exceptMap_eq_ok hgz with ⟨v, hv, heqz⟩
      subst heqy
      subst heqz
      exact ⟨row, v, hy, hz⟩
    refine ⟨hex, ?_, ?_⟩
    · intro rowA recAB hrowA hrec
      rw [charac A B toksA toksB m hm hA hB rowA recAB hrowA hrec]
      exact ⟨rfl, rfl⟩
    · intro rowA recAB rowB recBA hrowA hrec hrowB hrec'
      rw [charac A B toksA toksB m hm hA hB rowA recAB hrowA hrec,
        charac B A toksB toksA m hm hB hA rowB recBA hrowB hrec']
      dsimp only
      rw [Finset.inter_comm]
  · have hAB := @comparePair_ok String _ ["a", "b"] ["a"] (by decide)
    have hBA := @comparePair_ok String _ ["a"] ["a", "b"] (by decide)
    have hc1 : ((["a", "b"] : List String).toFinset ∩
        (["a"] : List String).toFinset).card = 1 := by decide
    have hc2 : (["a", "b"] : List String).toFinset.card = 2 := by decide
    have hc3 : ((["a"] : List String).toFinset ∩
        (["a", "b"] : List String).toFinset).card = 1 := by decide
    have hc4 : (["a"] : List String).toFinset.card = 1 := by decide
    rw [hc1, hc2] at hAB
    rw [hc3, hc4] at hBA
    refine ⟨_, _, hAB, hBA, rfl, ?_⟩
    dsimp only
    have e1 : ((1 : ℕ) : ℚ) / ((2 : ℕ) : ℚ) * 100 = ((50 : ℤ) : ℚ) := by norm_num
    have e2 : ((1 : ℕ) : ℚ) / ((1 : ℕ) : ℚ) * 100 = ((100 : ℤ) : ℚ) := by norm_num
    rw [e1, e2, roundTo_intCast, roundTo_intCast]
    norm_num

/-- Witness for C2 at the asymmetric two-text corpus. -/
theorem C2_vocabulary_overlap_witness :
    (∃ m, compare_vocabularies exOverlap = .ok m ∧
      ∀ (A B : String) (toksA toksB : List String),
        (A, toksA) ∈ exOverlap → (B, toksB) ∈ exOverlap → A ≠ B →
        (∃ rowA recAB, (A, rowA) ∈ m ∧ (B, recAB) ∈ rowA) ∧
        (∀ rowA recAB, (A, rowA) ∈ m → (B, recAB) ∈ rowA →
          recAB.shared_words = (toksA.toFinset ∩ toksB.toFinset).card ∧
          recAB.overlap_percentage = roundTo 2
            (((toksA.toFinset ∩ toksB.toFinset).card : ℚ) /
              toksA.toFinset.card * 100)) ∧
        (∀ rowA recAB rowB recBA, (A, rowA) ∈ m → (B, recAB) ∈ rowA →
          (B, rowB) ∈ m → (A, recBA) ∈ rowB →
          recAB.shared_words = recBA.shared_words)) ∧
    (∃ vAB vBA : VocabComp,
      comparePair (α := String) ["a", "b"] ["a"] = .ok vAB ∧
      comparePair (α := String) ["a"] ["a", "b"] = .ok vBA ∧
      vAB.shared_words = vBA.shared_words ∧
      vAB.overlap_percentage ≠ vBA.overlap_percentage) :=
  C2_vocabulary_overlap exOverlap (by decide) (by decide)

/-- C9: the overlap-percentage division is unguarded.  When every text has
at least one token every denominator is nonzero and the whole computation
succeeds; when the corpus has at least two texts and some text's token
sequence is empty, the division by zero (Python `ZeroDivisionError`) is
raised — the error branch is reachable, as the concrete two-text corpus
with an empty text shows. -/
theorem C9_unguarded_division (all_tokens : List (String × List String)) :
    ((∀ p ∈ all_tokens, p.2 ≠ []) → ∃ m, compare_vocabularies all_tokens = .ok m) ∧
    ((all_tokens.map Prod.fst).Nodup → 2 ≤ all_tokens.length →
      (∃ p ∈ all_tokens, p.2 = []) → compare_vocabularies all_tokens = .error ()) ∧
    compare_vocabularies [("A", ([] : List String)), ("B", ["a"])] = .error () := by
  have herr : ∀ (l : List (String × List String)), (l.map Prod.fst).Nodup →
      2 ≤ l.length → (∃ p ∈ l, p.2 = []) →
      compare_vocabularies l = .error () := by
    intro l hnd hlen hex
    rcases hex with ⟨p, hp, hpE⟩
    unfold compare_vocabularies
    have hq : ∃ q ∈ l, q.1 ≠ p.1 := by
      cases l with
      | nil => cases hp
      | cons a rest =>
        cases rest with
        | nil => simp at hlen
        | cons b rest2 =>
          have hab : a.1 ≠ b.1 := by
            rw [List.map_cons, List.map_cons] at hnd
            have h1 := (List.nodup_cons.mp hnd).1
            intro h
            exact h1 (h ▸ List.mem_cons_self _ _)
          by_cases hpa : p.1 = a.1
          · refine ⟨b, List.mem_cons_of_mem _ (List.mem_cons_self _ _), ?_⟩
            intro h
            rw [hpa] at h
            exact hab h.symm
          · exact ⟨a, List.mem_cons_self _ _, fun h => hpa h.symm⟩
    rcases hq with ⟨q, hq, hqne⟩
    have hqfilter : q ∈ l.filter (fun r => decide (r.1 ≠ p.1)) :=
      List.mem_filter.mpr ⟨hq, decide_eq_true hqne⟩
    have hinner : mapE (fun r => Except.map (fun v => (r.1, v)) (comparePair p.2 r.2))
        (l.filter (fun r => decide (r.1 ≠ p.1))) = .error () := by
      refine mapE_error_of_mem hqfilter ?_
      rw [comparePair_error hpE]
      rfl
    refine mapE_error_of_mem hp ?_
    rw [hinner]
    rfl
  refine ⟨fun hne => compare_vocabularies_ok all_tokens hne, herr all_tokens, ?_⟩
  refine herr [("A", ([] : List String)), ("B", ["a"])] (by decide) (by decide) ?_
  exact ⟨("A", []), by decide, rfl⟩

/-- Witness for C9: on a corpus of nonempty texts the computation
succeeds. -/
theorem C9_unguarded_division_witness :
    ∃ m, compare_vocabularies exOverlap = .ok m :=
  (C9_unguarded_division exOverlap).1 (by decide)
